import Mathlib

/-!
Verification of the airdrop-lottery CSV import pipeline
(`csv_import_script.py`) against its natural-language specification.

The script is embedded shallowly: each Python function becomes a Lean
function over explicit data, the external world (file system, subprocess
results) is passed in as parameters, and `sys.exit` / uncaught exceptions
become explicit result constructors.
-/

namespace AirdropLottery

/-! ## Python string primitives -/

/-- The whitespace characters recognised by Python's `str.strip()` and by
`int(s, 16)`'s surrounding-whitespace rule.  Modelled over the ASCII
fragment (space, tab, newline, carriage return, vertical tab, form feed);
Unicode-only whitespace is outside the model. -/
def isPySpace (c : Char) : Bool :=
  c = ' ' || c = '\t' || c = '\n' || c = '\r' || c = '\x0b' || c = '\x0c'

/-- Python `str.strip()` on a list of characters: drop whitespace from both
ends. -/
def pyStripList (l : List Char) : List Char :=
  ((l.dropWhile isPySpace).reverse.dropWhile isPySpace).reverse

/-- Python `str.strip()`. -/
def pyStrip (s : String) : String :=
  String.mk (pyStripList s.toList)

/-- A hexadecimal digit (0-9, a-f, A-F). -/
def isHexDigit (c : Char) : Bool :=
  ('0' ≤ c && c ≤ '9') || ('a' ≤ c && c ≤ 'f') || ('A' ≤ c && c ≤ 'F')

/-- Tail of a Python base-16 digit run, after its leading digit has been
consumed: a sequence of hex digits in which a single underscore may stand
between two digits (CPython's PEP-515 grouping rule). -/
def hexUndTail : List Char → Bool
  | [] => true
  | c :: rest =>
    if c = '_' then
      match rest with
      | [] => false
      | d :: rest2 => isHexDigit d && hexUndTail rest2
    else isHexDigit c && hexUndTail rest

/-- A nonempty Python base-16 digit run: leading hex digit, then
`hexUndTail`. -/
def hexUnd (l : List Char) : Bool :=
  match l with
  | [] => false
  | c :: rest => isHexDigit c && hexUndTail rest

/-- The part after an explicit `0x`/`0X` base marker: CPython additionally
allows one underscore directly after the marker. -/
def hexUndMarked (r : List Char) : Bool :=
  match r with
  | '_' :: r2 => hexUnd r2
  | _ => hexUnd r

/-- Strip one optional leading sign, as CPython's int parser does. -/
def stripSign (l : List Char) : List Char :=
  match l with
  | '+' :: r => r
  | '-' :: r => r
  | _ => l

/-- Body of a base-16 integer literal after sign stripping: an optional
`0x`/`0X` marker followed by a digit run. -/
def parseBody (m : List Char) : Bool :=
  match m with
  | '0' :: 'x' :: r => hexUndMarked r
  | '0' :: 'X' :: r => hexUndMarked r
  | _ => hexUnd m

/-- Models whether CPython's `int(s, 16)` succeeds on the string with the
given characters (ASCII fragment): optional surrounding whitespace, an
optional sign, an optional `0x`/`0X` marker, then one or more hex digits
with single underscores allowed between digits.  Unicode-only whitespace
and non-ASCII decimal digits are outside the model. -/
def pyInt16Ok (l : List Char) : Bool :=
  parseBody (stripSign (pyStripList l))

/-! ## The source functions -/

/-- `AirdropLotteryImporter.validate_address` (lines 71-92): requires the
`0x` prefix (case-sensitive `startswith`), a nonempty remainder
`address[2:]`, and success of `int(hex_part, 16)`. -/
def validate_address (address : String) : Bool :=
  match address.toList with
  | '0' :: 'x' :: hex_part =>
    if hex_part.isEmpty then false else pyInt16Ok hex_part
  | _ => false

/-- The validator as the specification words it: `0x` followed by one or
more hexadecimal characters, nothing else. -/
def specValidAddress (s : String) : Bool :=
  match s.toList with
  | '0' :: 'x' :: rest => !rest.isEmpty && rest.all isHexDigit
  | _ => false

/-- Python `range(start, stop, step)` as a list; `none` models the
`ValueError` raised when `step = 0`. -/
def pyRange (start stop step : Int) : Option (List Int) :=
  if step = 0 then none
  else if 0 < step then
    some ((List.range
        (if stop ≤ start then 0 else (stop - start - 1).toNat / step.toNat + 1)).map
      (fun k : Nat => start + (k : Int) * step))
  else
    some ((List.range
        (if start ≤ stop then 0 else (start - stop - 1).toNat / (- step).toNat + 1)).map
      (fun k : Nat => start + (k : Int) * step))

/-- Resolution of one Python slice index against length `n`: a negative
index counts from the end, then the index is clamped to `[0, n]`. -/
def pyIdx (n : Nat) (i : Int) : Nat :=
  (if i < 0 then max ((n : Int) + i) 0 else min i (n : Int)).toNat

/-- Python list slice `xs[i:j]` (step 1). -/
def pySlice (xs : List String) (i j : Int) : List String :=
  (xs.take (pyIdx xs.length j)).drop (pyIdx xs.length i)

/-- `AirdropLotteryImporter.create_batches` (lines 94-110):
`addresses[i : i + batch_size]` for `i in range(0, len(addresses),
batch_size)`; `none` models the uncaught `ValueError` when the configured
batch size is zero. -/
def create_batches (batch_size : Int) (addresses : List String) :
    Option (List (List String)) :=
  (pyRange 0 addresses.length batch_size).map
    (fun ks => ks.map (fun i => pySlice addresses i (i + batch_size)))

/-! ## Submission executor -/

/-- Outcome of the `subprocess.run` call inside `execute_add_participant`:
the process completed with an exit code and captured streams, the
120-second bound elapsed (`subprocess.TimeoutExpired`), or some other
exception was raised while starting/communicating. -/
inductive SubprocessOutcome where
  | completed (returncode : Int) (stdout stderr : String)
  | timedOut
  | raised (msg : String)
deriving DecidableEq

/-- `AirdropLotteryImporter.execute_add_participant` (lines 112-150) as a
function of the subprocess outcome: true exactly on exit code 0; timeout
and any unexpected exception are caught and returned as `false`. -/
def execute_add_participant (outcome : SubprocessOutcome) : Bool :=
  match outcome with
  | .completed rc _ _ => rc == 0
  | .timedOut => false
  | .raised _ => false

/-- The distinct log line classes emitted by `execute_add_participant`. -/
inductive ExecLog where
  | successLog (count : Nat)
  | failureLog (stdout stderr : String)
  | timeoutLog
  | unexpectedLog (msg : String)
deriving DecidableEq

/-- The final log line `execute_add_participant` emits for each outcome
(`count` is the number of addresses in the batch). -/
def executeLog (count : Nat) (outcome : SubprocessOutcome) : ExecLog :=
  match outcome with
  | .completed rc out err => if rc == 0 then .successLog count else .failureLog out err
  | .timedOut => .timeoutLog
  | .raised m => .unexpectedLog m

/-! ## Source reader -/

/-- Warnings logged by `read_csv` for skipped rows. -/
inductive RowWarning where
  | emptyRow (rowNum : Nat)
  | invalidAddress (rowNum : Nat) (value : String)
deriving DecidableEq

/-- The per-row loop of `read_csv` (lines 51-59): `rowNum` is the 1-based
file position of the current row (the first data row is row 2); each cell
is the value of the configured address column (missing column ↦ `""`,
matching `row.get(address_column, '')`). -/
def readRows : Nat → List String → List String × List RowWarning
  | _, [] => ([], [])
  | rowNum, cell :: rest =>
    let address := pyStrip cell
    let out := readRows (rowNum + 1) rest
    if address ≠ "" then
      if validate_address address then (address :: out.1, out.2)
      else (out.1, RowWarning.invalidAddress rowNum address :: out.2)
    else (out.1, RowWarning.emptyRow rowNum :: out.2)

/-- What the file system gives `read_csv`: the address-column cells of the
data rows in file order, or a failure to open/read the file. -/
inductive ReadOutcome where
  | ok (cells : List String)
  | fileNotFound
  | readError (msg : String)

/-- `AirdropLotteryImporter.read_csv` (lines 47-69): returns the validated
addresses, or `Except.error code` modelling `sys.exit(code)` on
`FileNotFoundError` or any other read exception. -/
def read_csv (src : ReadOutcome) : Except Nat (List String) :=
  match src with
  | .ok cells => .ok (readRows 2 cells).1
  | .fileNotFound => .error 1
  | .readError _ => .error 1

/-! ## Import orchestrator -/

/-- The aggregate counters of `import_participants`, extended with the
observable traces needed to state the claims: `execIdx` records the
1-based indices of batches for which `execute_add_participant` was
invoked, `sleepIdx` the indices after which `time.sleep(delay)` ran. -/
structure RunStats where
  successful_batches : Nat
  failed_batches : Nat
  total_processed : Nat
  execIdx : List Nat
  sleepIdx : List Nat
deriving DecidableEq

/-- Counters at the top of the loop (lines 178-180). -/
def initStats : RunStats := ⟨0, 0, 0, [], []⟩

/-- The per-batch loop of `import_participants` (lines 182-201).  `exec i`
is the external world's answer (the value of `execute_add_participant`)
for the 1-based batch `i`; `total` is `len(batches)`.  In dry-run mode the
executor is skipped, the batch is counted as succeeded, and — the sleep
being inside the `else:` branch — no pause happens. -/
def importLoop (dry_run : Bool) (exec : Nat → Bool) (total : Nat) :
    Nat → RunStats → List (List String) → RunStats
  | _, s, [] => s
  | i, s, batch :: rest =>
    if dry_run then
      importLoop dry_run exec total (i + 1)
        { s with successful_batches := s.successful_batches + 1,
                 total_processed := s.total_processed + batch.length } rest
    else
      let ok := exec i
      let s1 := { s with execIdx := s.execIdx ++ [i] }
      let s2 :=
        if ok then
          { s1 with successful_batches := s1.successful_batches + 1,
                    total_processed := s1.total_processed + batch.length }
        else
          { s1 with failed_batches := s1.failed_batches + 1 }
      let s3 := if i < total then { s2 with sleepIdx := s2.sleepIdx ++ [i] } else s2
      importLoop dry_run exec total (i + 1) s3 rest

/-- How a whole `import_participants` call ends. -/
inductive RunResult where
  | exited (code : Nat)
  | valueError
  | done (stats : Option RunStats)
deriving DecidableEq

/-- `AirdropLotteryImporter.import_participants` (lines 152-211):
`exited`
models the `sys.exit` inside `read_csv`; `valueError` the uncaught
`ValueError` from `range(0, n, 0)`; `done none` the early return when no
valid address was found; `done (some stats)` a completed run. -/
def import_participants (dry_run : Bool) (exec : Nat → Bool) (batch_size : Int)
    (src : ReadOutcome) : RunResult :=
  match read_csv src with
  | .error c => .exited c
  | .ok addresses =>
    if addresses.isEmpty then .done none
    else
      match create_batches batch_size addresses with
      | none => .valueError
      | some batches =>
        .done (some (importLoop dry_run exec batches.length 1 initStats batches))

/-- Process exit status of `main`: the `sys.exit` code, 1 for an uncaught
exception, 0 for a normal return. -/
def mainExitCode (dry_run : Bool) (exec : Nat → Bool) (batch_size : Int)
    (src : ReadOutcome) : Nat :=
  match import_participants dry_run exec batch_size src with
  | .exited c => c
  | .valueError => 1
  | .done _ => 0

/-! ## Specification-side predicates and auxiliary chunking forms -/

/-- Declarative form of a Python digit run over `{hex digits, underscore}`:
nonempty, starts with a hex digit, does not end with an underscore, and no
underscore is followed by another underscore or a non-digit. -/
def HexDigits (ds : List Char) : Prop :=
  ds ≠ [] ∧
  (∀ c ∈ ds, isHexDigit c = true ∨ c = '_') ∧
  (∃ c, ds.head? = some c ∧ isHexDigit c = true) ∧
  ds.getLast? ≠ some '_' ∧
  ds.Chain' (fun a b => a = '_' → isHexDigit b = true)

/-- Declarative grammar of the strings accepted by CPython's `int(s, 16)`
(ASCII fragment): after stripping surrounding whitespace, an optional
sign, an optional `0x`/`0X` marker (possibly followed by one grouping
underscore), then a digit run. -/
def PyInt16 (l : List Char) : Prop :=
  ∃ sgn pre ds : List Char,
    pyStripList l = sgn ++ (pre ++ ds) ∧
    (sgn = [] ∨ sgn = ['+'] ∨ sgn = ['-']) ∧
    (pre = [] ∨ pre = ['0', 'x'] ∨ pre = ['0', 'X'] ∨
      pre = ['0', 'x', '_'] ∨ pre = ['0', 'X', '_']) ∧
    HexDigits ds

/-- Number of slices `range(0, n, b)` produces for a positive step `b`. -/
def chunkCount (b n : Nat) : Nat := if n = 0 then 0 else (n - 1) / b + 1

/-- The slices `addresses[k*b : k*b + b]` in index order, in `Nat` form. -/
def slices (b : Nat) (xs : List String) : List (List String) :=
  (List.range (chunkCount b xs.length)).map (fun k => (xs.drop (k * b)).take b)

/-- Recursive chunking with chunk size `bp + 1`. -/
def chunksRec (bp : Nat) : List String → List (List String)
  | [] => []
  | x :: xs => (x :: xs.take bp) :: chunksRec bp (xs.drop bp)
termination_by xs => xs.length
decreasing_by simp [List.length_drop]; omega

/-! ## Batcher lemmas -/

theorem chunksRec_nil (bp : Nat) : chunksRec bp [] = [] := by
  rw [chunksRec]

theorem chunksRec_cons (bp : Nat) (x : String) (xs : List String) :
    chunksRec bp (x :: xs) = (x :: xs.take bp) :: chunksRec bp (xs.drop bp) := by
  rw [chunksRec]

theorem pySlice_chunk (xs : List String) (k b : Nat) :
    pySlice xs ((k * b : Nat) : Int) (((k * b : Nat) : Int) + (b : Nat)) =
      (xs.drop (k * b)).take b := by
  unfold pySlice
  have hlo : pyIdx xs.length ((k * b : Nat) : Int) = min (k * b) xs.length := by
    unfold pyIdx
    rw [if_neg (by omega)]
    omega
  have hhi : pyIdx xs.length (((k * b : Nat) : Int) + (b : Nat)) = min (k * b + b) xs.length := by
    unfold pyIdx
    rw [if_neg (by omega)]
    omega
  rw [hlo, hhi]
  by_cases hk : xs.length ≤ k * b
  · have h1 : min (k * b) xs.length = xs.length := by omega
    have h2 : min (k * b + b) xs.length = xs.length := by omega
    rw [h1, h2, List.take_length, List.drop_eq_nil_of_le hk,
      List.drop_eq_nil_of_le (le_refl _), List.take_nil]
  · by_cases hk2 : k * b + b ≤ xs.length
    · have h1 : min (k * b) xs.length = k * b := by omega
      have h2 : min (k * b + b) xs.length = k * b + b := by omega
      rw [h1, h2, ← List.take_drop]
    · have h1 : min (k * b) xs.length = k * b := by omega
      have h2 : min (k * b + b) xs.length = xs.length := by omega
      rw [h1, h2, List.take_length,
        List.take_of_length_le (by simp [List.length_drop]; omega)]

theorem create_batches_natCast (b : Nat) (hb : 0 < b) (xs : List String) :
    create_batches (b : Int) xs = some (slices b xs) := by
  unfold create_batches pyRange
  rw [if_neg (by omega), if_pos (by omega)]
  have hcnt : (if ((xs.length : Nat) : Int) ≤ 0 then 0
      else (((xs.length : Nat) : Int) - 0 - 1).toNat / ((b : Int)).toNat + 1)
      = chunkCount b xs.length := by
    by_cases h : xs.length = 0
    · simp [chunkCount, h]
    · rw [if_neg (by omega), chunkCount, if_neg h]
      congr 2
      all_goals omega
  rw [hcnt]
  rw [Option.map_some']
  apply congrArg some
  rw [List.map_map]
  unfold slices
  apply List.map_congr_left
  intro k _
  have hc : (0 : Int) + (k : Int) * (b : Int) = ((k * b : Nat) : Int) := by
    push_cast; ring
  simp only [Function.comp_apply, hc]
  exact pySlice_chunk xs k b

theorem create_batches_eq_slices (bs : Int) (hb : 0 < bs) (xs : List String) :
    create_batches bs xs = some (slices bs.toNat xs) := by
  obtain ⟨b, rfl⟩ : ∃ b : Nat, bs = (b : Int) := ⟨bs.toNat, by omega⟩
  rw [create_batches_natCast b (by omega) xs,
    show ((b : Int)).toNat = b by omega]

theorem chunksRec_nil_iff (bp : Nat) (xs : List String) :
    chunksRec bp xs = [] ↔ xs = [] := by
  cases xs <;> simp [chunksRec_nil, chunksRec_cons]

theorem slices_eq_chunksRec (b : Nat) (hb : 0 < b) :
    ∀ (n : Nat) (xs : List String), xs.length ≤ n → slices b xs = chunksRec (b - 1) xs := by
  intro n
  induction n with
  | zero =>
    intro xs hx
    have hxs : xs = [] := by cases xs <;> simp_all
    subst hxs
    simp [slices, chunkCount, chunksRec]
  | succ m ih =>
    intro xs hx
    match xs with
    | [] => simp [slices, chunkCount, chunksRec]
    | x :: t =>
      obtain ⟨bp, rfl⟩ : ∃ bp, b = bp + 1 := ⟨b - 1, by omega⟩
      have hx' : t.length ≤ m := by
        simp only [List.length_cons] at hx
        omega
      simp only [Nat.add_sub_cancel]
      have hcc : chunkCount (bp + 1) (x :: t).length = t.length / (bp + 1) + 1 := by
        rw [chunkCount, if_neg (by simp)]
        simp
      have hm : t.length / (bp + 1) = chunkCount (bp + 1) (t.length - bp) := by
        by_cases hL : t.length < bp + 1
        · rw [chunkCount, if_pos (by omega), Nat.div_eq_of_lt hL]
        · rw [chunkCount, if_neg (by omega),
            Nat.div_eq_sub_div hb (by omega : bp + 1 ≤ t.length),
            show t.length - (bp + 1) = t.length - bp - 1 by omega]
      rw [slices, hcc, List.range_succ_eq_map, List.map_cons, List.map_map]
      have hhead : ((x :: t).drop (0 * (bp + 1))).take (bp + 1) = x :: t.take bp := by
        rw [Nat.zero_mul, List.drop_zero, List.take_succ_cons]
      have hrw : (List.range (t.length / (bp + 1))).map
            ((fun k => ((x :: t).drop (k * (bp + 1))).take (bp + 1)) ∘ Nat.succ)
          = slices (bp + 1) (t.drop bp) := by
        rw [slices]
        have hlen : (t.drop bp).length = t.length - bp := by
          simp [List.length_drop]
        rw [hlen, ← hm]
        apply List.map_congr_left
        intro k _
        simp only [Function.comp_apply]
        congr 1
        rw [Nat.succ_mul, Nat.add_comm, ← List.drop_drop, List.drop_succ_cons]
      have ih' := ih (t.drop bp) (by simp only [List.length_drop]; omega)
      simp only [Nat.add_sub_cancel] at ih'
      rw [hhead, hrw, ih', chunksRec_cons]

theorem slices_eq_chunksRec' (b : Nat) (hb : 0 < b) (xs : List String) :
    slices b xs = chunksRec (b - 1) xs :=
  slices_eq_chunksRec b hb xs.length xs (le_refl _)

theorem chunksRec_flatten (bp : Nat) :
    ∀ (n : Nat) (xs : List String), xs.length ≤ n → (chunksRec bp xs).flatten = xs := by
  intro n
  induction n with
  | zero =>
    intro xs hx
    have hxs : xs = [] := by cases xs <;> simp_all
    subst hxs
    simp [chunksRec]
  | succ m ih =>
    intro xs hx
    match xs with
    | [] => simp [chunksRec_nil]
    | x :: t =>
      have hx' : t.length ≤ m := by
        simp only [List.length_cons] at hx
        omega
      rw [chunksRec_cons, List.flatten_cons,
        ih (t.drop bp) (by simp only [List.length_drop]; omega)]
      simp [List.take_append_drop]

theorem chunksRec_mem (bp : Nat) :
    ∀ (n : Nat) (xs : List String) (c : List String), xs.length ≤ n →
      c ∈ chunksRec bp xs → c ≠ [] ∧ c.length ≤ bp + 1 := by
  intro n
  induction n with
  | zero =>
    intro xs c hx hc
    have hxs : xs = [] := by cases xs <;> simp_all
    subst hxs
    simp [chunksRec] at hc
  | succ m ih =>
    intro xs c hx hc
    match xs with
    | [] => simp [chunksRec_nil] at hc
    | x :: t =>
      have hx' : t.length ≤ m := by
        simp only [List.length_cons] at hx
        omega
      rw [chunksRec_cons, List.mem_cons] at hc
      rcases hc with hc | hc
      · subst hc
        refine ⟨by simp, ?_⟩
        simp only [List.length_cons, List.length_take]
        omega
      · exact ih (t.drop bp) c (by simp only [List.length_drop]; omega) hc

theorem chunksRec_dropLast (bp : Nat) :
    ∀ (n : Nat) (xs : List String) (c : List String), xs.length ≤ n →
      c ∈ (chunksRec bp xs).dropLast → c.length = bp + 1 := by
  intro n
  induction n with
  | zero =>
    intro xs c hx hc
    have hxs : xs = [] := by cases xs <;> simp_all
    subst hxs
    simp [chunksRec] at hc
  | succ m ih =>
    intro xs c hx hc
    match xs with
    | [] => simp [chunksRec_nil] at hc
    | x :: t =>
      have hx' : t.length ≤ m := by
        simp only [List.length_cons] at hx
        omega
      rw [chunksRec_cons] at hc
      rcases hrest : chunksRec bp (t.drop bp) with _ | ⟨r, rs⟩
      · rw [hrest] at hc
        simp at hc
      · rw [hrest, List.dropLast_cons₂, List.mem_cons] at hc
        rcases hc with hc | hc
        · subst hc
          have hne : t.drop bp ≠ [] := by
            intro h
            rw [h, chunksRec_nil] at hrest
            exact List.noConfusion hrest
          have hlt : bp < t.length := by
            by_contra h
            exact hne (List.drop_eq_nil_of_le (by omega))
          simp only [List.length_cons, List.length_take]
          omega
        · rw [← hrest] at hc
          exact ih (t.drop bp) c (by simp only [List.length_drop]; omega) hc

theorem chunksRec_replicate_step (bp n : Nat) (a : String) (h : bp < n) :
    chunksRec bp (List.replicate n a)
      = List.replicate (bp + 1) a :: chunksRec bp (List.replicate (n - (bp + 1)) a) := by
  obtain ⟨t, rfl⟩ : ∃ t, n = t + 1 := ⟨n - 1, by omega⟩
  rw [List.replicate_succ, chunksRec_cons, List.take_replicate, List.drop_replicate,
    show min bp t = bp by omega, ← List.replicate_succ,
    show t + 1 - (bp + 1) = t - bp by omega]

theorem chunksRec_replicate_last (bp n : Nat) (a : String) (h1 : 0 < n) (h2 : n ≤ bp + 1) :
    chunksRec bp (List.replicate n a) = [List.replicate n a] := by
  obtain ⟨t, rfl⟩ : ∃ t, n = t + 1 := ⟨n - 1, by omega⟩
  rw [List.replicate_succ, chunksRec_cons, List.take_replicate, List.drop_replicate,
    show min bp t = t by omega, show t - bp = 0 by omega, List.replicate_zero,
    chunksRec_nil, ← List.replicate_succ]

/-! ## Claim theorems: the Batcher -/

/-- **C1.** For every list of address strings and every positive batch size,
concatenating in order the batches returned by `create_batches` yields
exactly the input list (no loss, duplication or reordering), and no batch
is empty. -/
theorem create_batches_round_trip (addresses : List String) (batch_size : Int)
    (hb : 0 < batch_size) :
    (create_batches batch_size addresses).map List.flatten = some addresses ∧
    (create_batches batch_size addresses).map
      (fun bss => bss.all (fun b => !b.isEmpty)) = some true := by
  rw [create_batches_eq_slices batch_size hb addresses,
    slices_eq_chunksRec' batch_size.toNat (by omega)]
  constructor
  · rw [Option.map_some']
    exact congrArg some (chunksRec_flatten _ addresses.length addresses (le_refl _))
  · rw [Option.map_some']
    apply congrArg some
    rw [List.all_eq_true]
    intro c hc
    have h := chunksRec_mem _ addresses.length addresses c (le_refl _) hc
    simpa using h.1

/-- Witness for C1 at a concrete input. -/
theorem create_batches_round_trip_witness :
    (create_batches 2 ["0x1", "0x2", "0x3"]).map List.flatten
        = some ["0x1", "0x2", "0x3"] ∧
    (create_batches 2 ["0x1", "0x2", "0x3"]).map
        (fun bss => bss.all (fun b => !b.isEmpty)) = some true :=
  create_batches_round_trip ["0x1", "0x2", "0x3"] 2 (by decide)

/-- **C9.** Every batch has size at most the configured batch size, every
batch except the last has exactly the batch size, and 2500 addresses with
batch size 1000 give exactly 3 batches of sizes `[1000, 1000, 500]`. -/
theorem create_batches_sizes :
    (∀ (bs : Int) (xs : List String) (bss : List (List String)), 0 < bs →
        create_batches bs xs = some bss →
        (∀ c ∈ bss, (c.length : Int) ≤ bs) ∧
        (∀ c ∈ bss.dropLast, (c.length : Int) = bs)) ∧
    (∃ bss, create_batches 1000 (List.replicate 2500 "0x1") = some bss ∧
        bss.map List.length = [1000, 1000, 500]) := by
  constructor
  · intro bs xs bss hb hsome
    rw [create_batches_eq_slices bs hb xs,
      slices_eq_chunksRec' bs.toNat (by omega)] at hsome
    have hbss := (Option.some.inj hsome).symm
    subst hbss
    constructor
    · intro c hc
      have h := chunksRec_mem (bs.toNat - 1) xs.length xs c (le_refl _) hc
      omega
    · intro c hc
      have h := chunksRec_dropLast (bs.toNat - 1) xs.length xs c (le_refl _) hc
      omega
  · have h1 := create_batches_eq_slices 1000 (by norm_num) (List.replicate 2500 "0x1")
    rw [show ((1000 : Int)).toNat = 1000 from rfl,
      slices_eq_chunksRec' 1000 (by norm_num),
      show (1000 : Nat) - 1 = 999 from rfl] at h1
    have e1 : chunksRec 999 (List.replicate 2500 "0x1")
        = List.replicate 1000 "0x1" :: chunksRec 999 (List.replicate 1500 "0x1") := by
      rw [chunksRec_replicate_step 999 2500 "0x1" (by norm_num)]
    have e2 : chunksRec 999 (List.replicate 1500 "0x1")
        = List.replicate 1000 "0x1" :: chunksRec 999 (List.replicate 500 "0x1") := by
      rw [chunksRec_replicate_step 999 1500 "0x1" (by norm_num)]
    have e3 : chunksRec 999 (List.replicate 500 "0x1") = [List.replicate 500 "0x1"] :=
      chunksRec_replicate_last 999 500 "0x1" (by norm_num) (by norm_num)
    refine ⟨chunksRec 999 (List.replicate 2500 "0x1"), h1, ?_⟩
    rw [e1, e2, e3]
    simp only [List.map_cons, List.map_nil, List.length_replicate]

/-- Witness for C9: the first batch of `create_batches 2` on a 3-element
list has length at most 2, by the general bound. -/
theorem create_batches_sizes_witness :
    ((["0x1", "0x2"] : List String).length : Int) ≤ 2 :=
  (create_batches_sizes.1 2 ["0x1", "0x2", "0x3"] [["0x1", "0x2"], ["0x3"]]
      (by decide) (by decide)).1 ["0x1", "0x2"] (by decide)

/-- **C10.** Outside the positive-batch-size precondition the Batcher is
not total: batch size 0 raises (the range step is zero — modelled as
`none`), and every negative batch size silently returns no batches at
all, dropping every address. -/
theorem create_batches_nonpositive (xs : List String) :
    create_batches 0 xs = none ∧
    ∀ bs : Int, bs < 0 → create_batches bs xs = some [] := by
  constructor
  · rfl
  · intro bs hbs
    unfold create_batches pyRange
    rw [if_neg (by omega), if_neg (by omega), if_pos (by omega : (0 : Int) ≤ xs.length)]
    simp

/-- Witness for C10 at a concrete nonempty list and batch sizes 0 and -3. -/
theorem create_batches_nonpositive_witness :
    create_batches 0 ["0x1"] = none ∧ create_batches (-3) ["0x1"] = some [] :=
  ⟨(create_batches_nonpositive ["0x1"]).1,
    (create_batches_nonpositive ["0x1"]).2 (-3) (by decide)⟩

/-! ## Orchestrator lemmas -/

theorem importLoop_dry (exec : Nat → Bool) (total : Nat) :
    ∀ (batches : List (List String)) (i : Nat) (s : RunStats),
      importLoop true exec total i s batches =
        ⟨s.successful_batches + batches.length, s.failed_batches,
         s.total_processed + (batches.map List.length).sum, s.execIdx, s.sleepIdx⟩ := by
  intro batches
  induction batches with
  | nil =>
    intro i s
    cases s
    simp [importLoop]
  | cons batch rest ih =>
    intro i s
    cases s
    simp only [importLoop, if_true, ih, List.map_cons, List.sum_cons, List.length_cons,
      RunStats.mk.injEq]
    refine ⟨?_, ?_, ?_, ?_, ?_⟩ <;> first | trivial | omega

theorem importLoop_execIdx (exec : Nat → Bool) (total : Nat) :
    ∀ (batches : List (List String)) (i : Nat) (s : RunStats),
      (importLoop false exec total i s batches).execIdx
        = s.execIdx ++ List.range' i batches.length := by
  intro batches
  induction batches with
  | nil =>
    intro i s
    simp [importLoop]
  | cons batch rest ih =>
    intro i s
    rw [List.length_cons, List.range'_succ]
    simp only [importLoop, if_false, Bool.false_eq_true]
    by_cases hok : exec i = true
    · by_cases hlt : i < total <;>
        simp [hok, hlt, ih, List.append_assoc]
    · by_cases hlt : i < total <;>
        simp [hok, hlt, ih, List.append_assoc]

theorem importLoop_sleepIdx (exec : Nat → Bool) :
    ∀ (batches : List (List String)) (total i : Nat) (s : RunStats),
      i + batches.length = total + 1 →
      (importLoop false exec total i s batches).sleepIdx
        = s.sleepIdx ++ List.range' i (total - i) := by
  intro batches
  induction batches with
  | nil =>
    intro total i s hi
    simp only [List.length_nil] at hi ⊢
    have : total - i = 0 := by simp at hi; omega
    rw [this]
    simp [importLoop]
  | cons batch rest ih =>
    intro total i s hi
    simp only [List.length_cons] at hi
    simp only [importLoop, if_false, Bool.false_eq_true]
    rcases rest with _ | ⟨r, rs⟩
    · have hit : i = total := by simp at hi; omega
      have hnlt : ¬ i < total := by omega
      have h0 : total - i = 0 := by omega
      by_cases hok : exec i = true <;>
        simp [hok, hnlt, h0, importLoop]
    · have hlt : i < total := by simp at hi; omega
      have hstep : total - i = (total - (i + 1)) + 1 := by omega
      rw [hstep, List.range'_succ]
      have harg : (i + 1) + (r :: rs).length = total + 1 := by
        simp only [List.length_cons] at hi ⊢
        omega
      have ih' := fun st => ih total (i + 1) st harg
      by_cases hok : exec i = true
      · simp only [hok, if_true, if_pos hlt]
        rw [ih']
        simp [List.append_assoc]
      · simp only [hok]
        simp only [Bool.false_eq_true, if_false, if_pos hlt]
        rw [ih']
        simp [List.append_assoc]

theorem importLoop_accounting (exec : Nat → Bool) (total : Nat) :
    ∀ (batches : List (List String)) (i : Nat) (s : RunStats),
      (importLoop false exec total i s batches).successful_batches
          + (importLoop false exec total i s batches).failed_batches
        = s.successful_batches + s.failed_batches + batches.length := by
  intro batches
  induction batches with
  | nil =>
    intro i s
    simp [importLoop]
  | cons batch rest ih =>
    intro i s
    simp only [importLoop, if_false, Bool.false_eq_true]
    by_cases hok : exec i = true
    · by_cases hlt : i < total <;>
        · simp [hok, hlt, ih, List.length_cons]
          omega
    · by_cases hlt : i < total <;>
        · simp [hok, hlt, ih, List.length_cons]
          omega

/-! ## Reader lemma -/

theorem readRows_fst :
    ∀ (cells : List String) (rowNum : Nat),
      (readRows rowNum cells).1
        = cells.filterMap (fun cell =>
            if pyStrip cell ≠ "" ∧ validate_address (pyStrip cell) = true
            then some (pyStrip cell) else none) := by
  intro cells
  induction cells with
  | nil => intro rowNum; simp [readRows]
  | cons cell rest ih =>
    intro rowNum
    by_cases h1 : pyStrip cell = ""
    · simp [readRows, List.filterMap_cons, h1, ih]
    · by_cases h2 : validate_address (pyStrip cell) = true
      · simp [readRows, List.filterMap_cons, h1, h2, ih]
      · simp [readRows, List.filterMap_cons, h1, h2, ih]

/-! ## Claim theorems: orchestrator, executor, reader -/

/-- **C3 counterexample.** The claim predicts that in a dry run over 2
batches the orchestrator pauses after batch 1 (sleep trace `[1]`); in the
code the `time.sleep` sits inside the non-dry-run `else:` branch, so a dry
run records no sleep at all. -/
theorem dry_run_pacing_counterexample :
    ¬ (importLoop true (fun _ => true) 2 1 initStats
        [["0x1"], ["0x2"]]).sleepIdx = [1] := by
  decide

/-- **C3 amended.** In a non-dry run the orchestrator pauses exactly after
every batch except the last (sleep trace `[1, …, n-1]`); in a dry run it
never pauses. -/
theorem inter_batch_pacing (exec : Nat → Bool) (batches : List (List String)) :
    (importLoop false exec batches.length 1 initStats batches).sleepIdx
        = List.range' 1 (batches.length - 1) ∧
    (importLoop true exec batches.length 1 initStats batches).sleepIdx = [] := by
  constructor
  · rw [importLoop_sleepIdx exec batches batches.length 1 initStats (by omega)]
    simp [initStats]
  · rw [importLoop_dry]
    simp [initStats]

/-- **C4.** With 3 batches where batch 2 fails and batches 1 and 3
succeed, the orchestrator attempts all 3 in order (executor trace
`[1, 2, 3]`), reports 2 succeeded / 1 failed, and counts as processed only
the addresses of batches 1 and 3. -/
theorem failure_isolation (b1 b2 b3 : List String) (exec : Nat → Bool)
    (h1 : exec 1 = true) (h2 : exec 2 = false) (h3 : exec 3 = true) :
    importLoop false exec 3 1 initStats [b1, b2, b3]
      = ⟨2, 1, b1.length + b3.length, [1, 2, 3], [1, 2]⟩ := by
  simp [importLoop, initStats, h1, h2, h3]

/-- Witness for C4 at concrete batches and a concrete executor oracle. -/
theorem failure_isolation_witness :
    importLoop false (fun i => !(i == 2)) 3 1 initStats
        [["0xa"], ["0xb", "0xc"], ["0xd"]]
      = ⟨2, 1, 2, [1, 2, 3], [1, 2]⟩ :=
  failure_isolation ["0xa"] ["0xb", "0xc"] ["0xd"] (fun i => !(i == 2)) rfl rfl rfl

/-- **C5.** In dry-run mode the executor is never invoked (empty executor
trace), every batch is counted as succeeded, all its addresses are counted
as processed, and 0 batches are reported failed. -/
theorem dry_run_semantics (exec : Nat → Bool) (batches : List (List String)) :
    (importLoop true exec batches.length 1 initStats batches).execIdx = [] ∧
    (importLoop true exec batches.length 1 initStats batches).failed_batches = 0 ∧
    (importLoop true exec batches.length 1 initStats batches).successful_batches
        = batches.length ∧
    (importLoop true exec batches.length 1 initStats batches).total_processed
        = (batches.map List.length).sum := by
  rw [importLoop_dry]
  exact ⟨rfl, rfl, by simp [initStats], by simp [initStats]⟩

/-- **C7.** The executor classifies every abnormal outcome as a non-fatal
failure: a timeout yields `false` with the distinct timeout diagnostic
(the timeout log arises from no other outcome), any other exception yields
`false` rather than propagating, success happens exactly on exit code 0,
and the orchestrator loop always accounts for every batch (no abort). -/
theorem executor_failure_classification (n : Nat) (msg : String) :
    execute_add_participant .timedOut = false ∧
    execute_add_participant (.raised msg) = false ∧
    (∀ o : SubprocessOutcome,
      execute_add_participant o = true ↔ ∃ out err, o = .completed 0 out err) ∧
    (∀ o : SubprocessOutcome, executeLog n o = .timeoutLog ↔ o = .timedOut) ∧
    (∀ (exec : Nat → Bool) (total i : Nat) (s : RunStats)
        (batches : List (List String)),
      (importLoop false exec total i s batches).successful_batches
          + (importLoop false exec total i s batches).failed_batches
        = s.successful_batches + s.failed_batches + batches.length) := by
  refine ⟨rfl, rfl, ?_, ?_, ?_⟩
  · intro o
    cases o with
    | completed rc out err =>
      simp only [execute_add_participant, beq_iff_eq, SubprocessOutcome.completed.injEq]
      constructor
      · intro h; exact ⟨out, err, h, rfl, rfl⟩
      · rintro ⟨o1, e1, h, -, -⟩; exact h
    | timedOut => simp [execute_add_participant]
    | raised m => simp [execute_add_participant]
  · intro o
    cases o with
    | completed rc out err =>
      simp only [executeLog]
      by_cases h : (rc == 0) = true <;> simp [h]
    | timedOut => simp [executeLog]
    | raised m => simp [executeLog]
  · intro exec total i s batches
    exact importLoop_accounting exec total batches i s

/-- **C6.** The reader skips empty and invalid rows, preserving file
order: the concrete source `["0xAB", "", "notHex", "0x1"]` yields exactly
`["0xAB", "0x1"]` with one empty-row warning (row 3) and one
invalid-address warning (row 4); in general the output is the in-order
filter of the (stripped) cells that validate — no deduplication, no
sorting. -/
theorem reader_row_skipping :
    readRows 2 ["0xAB", "", "notHex", "0x1"]
        = (["0xAB", "0x1"],
           [RowWarning.emptyRow 3, RowWarning.invalidAddress 4 "notHex"]) ∧
    (∀ cells : List String, (readRows 2 cells).1
        = cells.filterMap (fun cell =>
            if pyStrip cell ≠ "" ∧ validate_address (pyStrip cell) = true
            then some (pyStrip cell) else none)) := by
  exact ⟨by decide, fun cells => readRows_fst cells 2⟩

/-- **C8.** With a positive configured batch size (the spec's
configuration surface), the process exits non-zero exactly when the source
is missing or unreadable; any readable source — whatever the executor
outcomes, dry-run flag, or number of valid addresses — ends with exit
status 0. -/
theorem exit_status (dry_run : Bool) (exec : Nat → Bool) (batch_size : Int)
    (hb : 0 < batch_size) :
    (∀ cells, mainExitCode dry_run exec batch_size (.ok cells) = 0) ∧
    mainExitCode dry_run exec batch_size .fileNotFound = 1 ∧
    (∀ msg, mainExitCode dry_run exec batch_size (.readError msg) = 1) := by
  refine ⟨?_, rfl, fun msg => rfl⟩
  intro cells
  by_cases h : (readRows 2 cells).1.isEmpty
  · simp [mainExitCode, import_participants, read_csv, h]
  · simp [mainExitCode, import_participants, read_csv, h,
      create_batches_eq_slices batch_size hb]

/-- Witness for C8 at a concrete run. -/
theorem exit_status_witness :
    mainExitCode false (fun _ => false) 1000 (.ok ["0x1"]) = 0 ∧
    mainExitCode false (fun _ => false) 1000 .fileNotFound = 1 ∧
    mainExitCode false (fun _ => false) 1000 (.readError "disk error") = 1 :=
  ⟨(exit_status false (fun _ => false) 1000 (by decide)).1 ["0x1"],
   (exit_status false (fun _ => false) 1000 (by decide)).2.1,
   (exit_status false (fun _ => false) 1000 (by decide)).2.2 "disk error"⟩

/-! ## Validator grammar characterization -/

theorem isHexDigit_ne_underscore {c : Char} (h : isHexDigit c = true) : c ≠ '_' := by
  intro hc
  subst hc
  exact absurd h (by decide)

theorem hexUndTail_underscore_cons (d : Char) (rest2 : List Char) :
    hexUndTail ('_' :: d :: rest2) = (isHexDigit d && hexUndTail rest2) := rfl

theorem hexUndTail_cons_ne (c : Char) (rest : List Char) (hc : ¬ c = '_') :
    hexUndTail (c :: rest) = (isHexDigit c && hexUndTail rest) := by
  rw [hexUndTail.eq_def]
  dsimp only
  rw [if_neg hc]

theorem hexUndTail_iff :
    ∀ (n : Nat) (l : List Char), l.length ≤ n →
      (hexUndTail l = true ↔
        ((∀ c ∈ l, isHexDigit c = true ∨ c = '_') ∧
         l.Chain' (fun a b => a = '_' → isHexDigit b = true) ∧
         l.getLast? ≠ some '_')) := by
  intro n
  induction n with
  | zero =>
    intro l hl
    have hnil : l = [] := by cases l <;> simp_all
    subst hnil
    simp [hexUndTail]
  | succ m ih =>
    intro l hl
    match l with
    | [] => simp [hexUndTail]
    | c :: rest =>
      by_cases hc : c = '_'
      · subst hc
        match rest with
        | [] =>
          rw [show hexUndTail ['_'] = false from rfl]
          simp
        | d :: rest2 =>
          have hl2 : rest2.length ≤ m := by
            simp only [List.length_cons] at hl
            omega
          rw [hexUndTail_underscore_cons]
          by_cases hd : isHexDigit d = true
          · have hdne : d ≠ '_' := isHexDigit_ne_underscore hd
            simp only [hd, Bool.true_and]
            rw [ih rest2 hl2]
            constructor
            · rintro ⟨h1, h2, h3⟩
              refine ⟨?_, ?_, ?_⟩
              · intro x hx
                rcases List.mem_cons.1 hx with hx | hx
                · exact Or.inr hx
                rcases List.mem_cons.1 hx with hx | hx
                · exact Or.inl (hx ▸ hd)
                · exact h1 x hx
              · rw [List.chain'_cons]
                refine ⟨fun _ => hd, ?_⟩
                rw [List.chain'_cons']
                exact ⟨fun y _ hdeq => absurd hdeq hdne, h2⟩
              · rw [List.getLast?_cons_cons]
                cases rest2 with
                | nil =>
                  simp only [List.getLast?_singleton]
                  intro hcon
                  exact hdne (Option.some.inj hcon)
                | cons r3 rs3 =>
                  rw [List.getLast?_cons_cons]
                  exact h3
            · rintro ⟨h1, h2, h3⟩
              refine ⟨?_, ?_, ?_⟩
              · exact fun x hx => h1 x (by simp [hx])
              · rw [List.chain'_cons] at h2
                rw [List.chain'_cons'] at h2
                exact h2.2.2
              · cases rest2 with
                | nil => simp
                | cons r3 rs3 =>
                  rw [List.getLast?_cons_cons, List.getLast?_cons_cons] at h3
                  exact h3
          · have hd2 : isHexDigit d = false := by
              rcases hdd : isHexDigit d
              · rfl
              · exact absurd hdd hd
            simp only [hd2, Bool.false_and, Bool.false_eq_true, false_iff]
            rintro ⟨-, h2, -⟩
            rw [List.chain'_cons] at h2
            exact hd (h2.1 rfl)
      · have hl1 : rest.length ≤ m := by
          simp only [List.length_cons] at hl
          omega
        rw [hexUndTail_cons_ne c rest hc]
        by_cases hcx : isHexDigit c = true
        · simp only [hcx, Bool.true_and]
          rw [ih rest hl1]
          constructor
          · rintro ⟨h1, h2, h3⟩
            refine ⟨?_, ?_, ?_⟩
            · intro x hx
              rcases List.mem_cons.1 hx with hx | hx
              · exact Or.inl (hx ▸ hcx)
              · exact h1 x hx
            · rw [List.chain'_cons']
              exact ⟨fun y _ hceq => absurd hceq hc, h2⟩
            · cases rest with
              | nil =>
                simp only [List.getLast?_singleton]
                intro hcon
                exact hc (Option.some.inj hcon)
              | cons r rs =>
                rw [List.getLast?_cons_cons]
                exact h3
          · rintro ⟨h1, h2, h3⟩
            refine ⟨?_, ?_, ?_⟩
            · exact fun x hx => h1 x (by simp [hx])
            · rw [List.chain'_cons'] at h2
              exact h2.2
            · cases rest with
              | nil => simp
              | cons r rs =>
                rw [List.getLast?_cons_cons] at h3
                exact h3
        · have hcx2 : isHexDigit c = false := by
            rcases hcc : isHexDigit c
            · rfl
            · exact absurd hcc hcx
          simp only [hcx2, Bool.false_and, Bool.false_eq_true, false_iff]
          rintro ⟨h1, -, -⟩
          rcases h1 c (List.mem_cons_self c rest) with h | h
          · exact hcx h
          · exact hc h

theorem hexUnd_iff (ds : List Char) : hexUnd ds = true ↔ HexDigits ds := by
  match ds with
  | [] =>
    simp only [hexUnd, HexDigits]
    simp
  | c :: rest =>
    rw [show hexUnd (c :: rest) = (isHexDigit c && hexUndTail rest) from rfl]
    unfold HexDigits
    by_cases hcx : isHexDigit c = true
    · have hcne : c ≠ '_' := isHexDigit_ne_underscore hcx
      simp only [hcx, Bool.true_and]
      rw [hexUndTail_iff rest.length rest (le_refl _)]
      constructor
      · rintro ⟨h1, h2, h3⟩
        refine ⟨by simp, ?_, ⟨c, rfl, hcx⟩, ?_, ?_⟩
        · intro x hx
          rcases List.mem_cons.1 hx with hx | hx
          · exact Or.inl (hx ▸ hcx)
          · exact h1 x hx
        · cases rest with
          | nil =>
            simp only [List.getLast?_singleton]
            intro hcon
            exact hcne (Option.some.inj hcon)
          | cons r rs =>
            rw [List.getLast?_cons_cons]
            exact h3
        · rw [List.chain'_cons']
          exact ⟨fun y _ hceq => absurd hceq hcne, h2⟩
      · rintro ⟨-, h1, -, h3, h4⟩
        refine ⟨?_, ?_, ?_⟩
        · exact fun x hx => h1 x (by simp [hx])
        · rw [List.chain'_cons'] at h4
          exact h4.2
        · cases rest with
          | nil => simp
          | cons r rs =>
            rw [List.getLast?_cons_cons] at h3
            exact h3
    · have hcx2 : isHexDigit c = false := by
        rcases hcc : isHexDigit c
        · rfl
        · exact absurd hcc hcx
      simp only [hcx2, Bool.false_and, Bool.false_eq_true, false_iff]
      rintro ⟨-, -, ⟨d, hd1, hd2⟩, -, -⟩
      rw [List.head?_cons] at hd1
      exact hcx ((Option.some.inj hd1) ▸ hd2)

theorem hexUndMarked_ne (c : Char) (r : List Char) (hc : ¬ c = '_') :
    hexUndMarked (c :: r) = hexUnd (c :: r) := by
  rw [hexUndMarked.eq_def]
  split
  · next r2 heq =>
    exact absurd (List.cons.inj heq).1 hc
  · rfl

theorem parseBody_iff (m : List Char) :
    parseBody m = true ↔
      ∃ pre ds : List Char, m = pre ++ ds ∧
        (pre = [] ∨ pre = ['0', 'x'] ∨ pre = ['0', 'X'] ∨
          pre = ['0', 'x', '_'] ∨ pre = ['0', 'X', '_']) ∧
        HexDigits ds := by
  rw [parseBody.eq_def]
  split
  · next r =>
    constructor
    · intro h
      rcases r with _ | ⟨c, r2⟩
      · rw [show hexUndMarked [] = false from rfl] at h
        exact absurd h (by simp)
      · by_cases hc : c = '_'
        · subst hc
          rw [show hexUndMarked ('_' :: r2) = hexUnd r2 from rfl] at h
          exact ⟨['0', 'x', '_'], r2, rfl, by simp, (hexUnd_iff r2).1 h⟩
        · rw [hexUndMarked_ne c r2 hc] at h
          exact ⟨['0', 'x'], c :: r2, rfl, by simp, (hexUnd_iff _).1 h⟩
    · rintro ⟨pre, ds, heq, hpre, hds⟩
      rcases hpre with rfl | rfl | rfl | rfl | rfl
      · exfalso
        simp only [List.nil_append] at heq
        rcases hds.2.1 'x' (by rw [← heq]; simp) with h | h
        · exact absurd h (by decide)
        · exact absurd h (by decide)
      · simp only [List.cons_append, List.nil_append] at heq
        have hr := (List.cons.inj (List.cons.inj heq).2).2
        rw [hr]
        rcases ds with _ | ⟨d, ds2⟩
        · exact absurd rfl hds.1
        · have hd : isHexDigit d = true := by
            obtain ⟨d0, hd0, hd0x⟩ := hds.2.2.1
            rw [List.head?_cons] at hd0
            exact (Option.some.inj hd0) ▸ hd0x
          rw [hexUndMarked_ne d ds2 (isHexDigit_ne_underscore hd)]
          exact (hexUnd_iff _).2 hds
      · exfalso
        simp only [List.cons_append, List.nil_append] at heq
        have := (List.cons.inj (List.cons.inj heq).2).1
        exact absurd this (by decide)
      · simp only [List.cons_append, List.nil_append] at heq
        have hr := (List.cons.inj (List.cons.inj heq).2).2
        rw [hr]
        rw [show hexUndMarked ('_' :: ds) = hexUnd ds from rfl]
        exact (hexUnd_iff _).2 hds
      · exfalso
        simp only [List.cons_append, List.nil_append] at heq
        have := (List.cons.inj (List.cons.inj heq).2).1
        exact absurd this (by decide)
  · next r =>
    constructor
    · intro h
      rcases r with _ | ⟨c, r2⟩
      · rw [show hexUndMarked [] = false from rfl] at h
        exact absurd h (by simp)
      · by_cases hc : c = '_'
        · subst hc
          rw [show hexUndMarked ('_' :: r2) = hexUnd r2 from rfl] at h
          exact ⟨['0', 'X', '_'], r2, rfl, by simp, (hexUnd_iff r2).1 h⟩
        · rw [hexUndMarked_ne c r2 hc] at h
          exact ⟨['0', 'X'], c :: r2, rfl, by simp, (hexUnd_iff _).1 h⟩
    · rintro ⟨pre, ds, heq, hpre, hds⟩
      rcases hpre with rfl | rfl | rfl | rfl | rfl
      · exfalso
        simp only [List.nil_append] at heq
        rcases hds.2.1 'X' (by rw [← heq]; simp) with h | h
        · exact absurd h (by decide)
        · exact absurd h (by decide)
      · exfalso
        simp only [List.cons_append, List.nil_append] at heq
        have := (List.cons.inj (List.cons.inj heq).2).1
        exact absurd this (by decide)
      · simp only [List.cons_append, List.nil_append] at heq
        have hr := (List.cons.inj (List.cons.inj heq).2).2
        rw [hr]
        rcases ds with _ | ⟨d, ds2⟩
        · exact absurd rfl hds.1
        · have hd : isHexDigit d = true := by
            obtain ⟨d0, hd0, hd0x⟩ := hds.2.2.1
            rw [List.head?_cons] at hd0
            exact (Option.some.inj hd0) ▸ hd0x
          rw [hexUndMarked_ne d ds2 (isHexDigit_ne_underscore hd)]
          exact (hexUnd_iff _).2 hds
      · exfalso
        simp only [List.cons_append, List.nil_append] at heq
        have := (List.cons.inj (List.cons.inj heq).2).1
        exact absurd this (by decide)
      · simp only [List.cons_append, List.nil_append] at heq
        have hr := (List.cons.inj (List.cons.inj heq).2).2
        rw [hr]
        rw [show hexUndMarked ('_' :: ds) = hexUnd ds from rfl]
        exact (hexUnd_iff _).2 hds
  · next hno1 hno2 =>
    constructor
    · intro h
      exact ⟨[], _, (List.nil_append _).symm, Or.inl rfl, (hexUnd_iff _).1 h⟩
    · rintro ⟨pre, ds, heq, hpre, hds⟩
      rcases hpre with rfl | rfl | rfl | rfl | rfl
      · simp only [List.nil_append] at heq
        subst heq
        exact (hexUnd_iff _).2 hds
      · exact absurd heq (by simp only [List.cons_append, List.nil_append]; exact hno1 ds)
      · exact absurd heq (by simp only [List.cons_append, List.nil_append]; exact hno2 ds)
      · exact absurd heq
          (by simp only [List.cons_append, List.nil_append]; exact hno1 ('_' :: ds))
      · exact absurd heq
          (by simp only [List.cons_append, List.nil_append]; exact hno2 ('_' :: ds))

theorem stripSign_ne (c : Char) (r : List Char) (h1 : ¬ c = '+') (h2 : ¬ c = '-') :
    stripSign (c :: r) = c :: r := by
  rw [stripSign.eq_def]
  split
  · next r2 heq => exact absurd (List.cons.inj heq).1 h1
  · next r2 heq => exact absurd (List.cons.inj heq).1 h2
  · rfl

/-- The head of a `pre ++ ds` decomposition with the `PyInt16` side
conditions is never a sign character. -/
theorem preDs_head_ne_sign (pre ds : List Char)
    (hpre : pre = [] ∨ pre = ['0', 'x'] ∨ pre = ['0', 'X'] ∨
      pre = ['0', 'x', '_'] ∨ pre = ['0', 'X', '_'])
    (hds : HexDigits ds) :
    stripSign (pre ++ ds) = pre ++ ds := by
  rcases hpre with rfl | rfl | rfl | rfl | rfl
  · rcases ds with _ | ⟨d, ds2⟩
    · exact absurd rfl hds.1
    · have hd : isHexDigit d = true := by
        obtain ⟨d0, hd0, hd0x⟩ := hds.2.2.1
        rw [List.head?_cons] at hd0
        exact (Option.some.inj hd0) ▸ hd0x
      rw [List.nil_append]
      exact stripSign_ne d ds2
        (fun h => absurd (h ▸ hd) (by decide))
        (fun h => absurd (h ▸ hd) (by decide))
  all_goals
    simp only [List.cons_append, List.nil_append]
    exact stripSign_ne '0' _ (by decide) (by decide)

theorem pyInt16Ok_iff (l : List Char) : pyInt16Ok l = true ↔ PyInt16 l := by
  unfold pyInt16Ok PyInt16
  rcases hl0 : pyStripList l with _ | ⟨c0, l1⟩
  · rw [show stripSign [] = [] from rfl, parseBody_iff]
    constructor
    · rintro ⟨pre, ds, heq, hpre, hds⟩
      exact ⟨[], pre, ds, by rw [List.nil_append, ← heq], Or.inl rfl, hpre, hds⟩
    · rintro ⟨sgn, pre, ds, heq, hsgn, hpre, hds⟩
      refine ⟨pre, ds, ?_, hpre, hds⟩
      rcases hsgn with rfl | rfl | rfl
      · rw [List.nil_append] at heq
        exact heq
      · exact absurd heq (by simp)
      · exact absurd heq (by simp)
  · by_cases hplus : c0 = '+'
    · subst hplus
      rw [show stripSign ('+' :: l1) = l1 from rfl, parseBody_iff]
      constructor
      · rintro ⟨pre, ds, heq, hpre, hds⟩
        exact ⟨['+'], pre, ds, by rw [heq]; rfl, Or.inr (Or.inl rfl), hpre, hds⟩
      · rintro ⟨sgn, pre, ds, heq, hsgn, hpre, hds⟩
        rcases hsgn with rfl | rfl | rfl
        · rw [List.nil_append] at heq
          exfalso
          have := preDs_head_ne_sign pre ds hpre hds
          rw [← heq] at this
          rw [show stripSign ('+' :: l1) = l1 from rfl] at this
          exact List.cons_ne_self '+' l1 this.symm
        · refine ⟨pre, ds, ?_, hpre, hds⟩
          simp only [List.cons_append, List.nil_append] at heq
          exact (List.cons.inj heq).2
        · exfalso
          simp only [List.cons_append, List.nil_append] at heq
          exact absurd (List.cons.inj heq).1 (by decide)
    · by_cases hminus : c0 = '-'
      · subst hminus
        rw [show stripSign ('-' :: l1) = l1 from rfl, parseBody_iff]
        constructor
        · rintro ⟨pre, ds, heq, hpre, hds⟩
          exact ⟨['-'], pre, ds, by rw [heq]; rfl, Or.inr (Or.inr rfl), hpre, hds⟩
        · rintro ⟨sgn, pre, ds, heq, hsgn, hpre, hds⟩
          rcases hsgn with rfl | rfl | rfl
          · rw [List.nil_append] at heq
            exfalso
            have := preDs_head_ne_sign pre ds hpre hds
            rw [← heq] at this
            rw [show stripSign ('-' :: l1) = l1 from rfl] at this
            exact List.cons_ne_self '-' l1 this.symm
          · exfalso
            simp only [List.cons_append, List.nil_append] at heq
            exact absurd (List.cons.inj heq).1 (by decide)
          · refine ⟨pre, ds, ?_, hpre, hds⟩
            simp only [List.cons_append, List.nil_append] at heq
            exact (List.cons.inj heq).2
      · rw [stripSign_ne c0 l1 hplus hminus, parseBody_iff]
        constructor
        · rintro ⟨pre, ds, heq, hpre, hds⟩
          exact ⟨[], pre, ds, by rw [List.nil_append, ← heq], Or.inl rfl, hpre, hds⟩
        · rintro ⟨sgn, pre, ds, heq, hsgn, hpre, hds⟩
          refine ⟨pre, ds, ?_, hpre, hds⟩
          rcases hsgn with rfl | rfl | rfl
          · rw [List.nil_append] at heq
            exact heq
          · exfalso
            simp only [List.cons_append, List.nil_append] at heq
            exact absurd (List.cons.inj heq).1 hplus
          · exfalso
            simp only [List.cons_append, List.nil_append] at heq
            exact absurd (List.cons.inj heq).1 hminus

/-! ## Claim theorems: the Validator -/

/-- **C2 counterexample.** The claim's iff fails at `"0x+1"`: the code
accepts it (Python's `int("+1", 16)` succeeds), yet its remainder `"+1"`
is not a string of hexadecimal digits. -/
theorem validator_hex_only_counterexample :
    validate_address "0x+1" = true ∧ specValidAddress "0x+1" = false :=
  ⟨by decide, by decide⟩

/-- **C2 amended.** `validate_address s` is true iff `s` starts with `0x`,
its remainder is nonempty, and the remainder is accepted by CPython's
base-16 integer grammar: after stripping surrounding whitespace, an
optional sign, an optional `0x`/`0X` marker (possibly followed by one
grouping underscore), then one or more hex digits with single underscores
allowed between digits — strictly more than the hex-digits-only strings
the claim describes. -/
theorem validate_address_iff (s : String) :
    validate_address s = true ↔
      ∃ rest : List Char, s.toList = '0' :: 'x' :: rest ∧ rest ≠ [] ∧ PyInt16 rest := by
  rw [validate_address.eq_def]
  split
  · next hex_part heq =>
    constructor
    · intro h
      by_cases he : hex_part.isEmpty
      · rw [if_pos he] at h
        exact absurd h (by simp)
      · rw [if_neg he] at h
        refine ⟨hex_part, heq, ?_, (pyInt16Ok_iff hex_part).1 h⟩
        simpa using he
    · rintro ⟨rest, hrest, hne, hpy⟩
      rw [heq] at hrest
      have hr : hex_part = rest := (List.cons.inj (List.cons.inj hrest).2).2
      rw [if_neg (by rw [hr]; simpa using hne)]
      exact (pyInt16Ok_iff hex_part).2 (hr ▸ hpy)
  · next hno =>
    simp only [Bool.false_eq_true, false_iff]
    rintro ⟨rest, hrest, -, -⟩
    exact hno rest hrest

/-- Witness for the amended C2 at the concrete address `"0x1f"`. -/
theorem validate_address_iff_witness : validate_address "0x1f" = true :=
  (validate_address_iff "0x1f").2
    ⟨['1', 'f'], rfl, by decide,
      ⟨[], [], ['1', 'f'], rfl, Or.inl rfl, Or.inl rfl,
        ⟨by decide, by decide, ⟨'1', rfl, by decide⟩, by decide,
          List.chain'_cons.mpr ⟨fun _ => by decide, List.chain'_singleton 'f'⟩⟩⟩⟩

end AirdropLottery
